import Mathlib

/-!
Verification of the `split-iter` Rust crate (`src/lib.rs`).

The crate splits one iterator into two (`left`, `right`) according to a
predicate.  A `SharedSplitState` owns the underlying iterator, the
predicate, a FIFO cache of items skipped by one side, and a flag
`is_right_cached` recording which side the cache serves.

Shallow embedding conventions:
* A Rust iterator is modelled as a `List (Option α)` of the responses its
  successive `next()` calls would give; pulling from an empty response
  list yields `none` (so `S.map some` models a well-behaved iterator over
  the finite sequence `S`, while a list containing `none` followed by
  `some _` models a non-fused iterator that yields again after reporting
  exhaustion).
* The `FnMut` predicate is modelled as a pure function `α → Bool`.
* The `Rc<RefCell<_>>` sharing of the state between the two `Split`
  handles is modelled by threading the single state value explicitly;
  an interleaving of calls on the two handles is a `List Bool` of side
  tags (`false` = left, `true` = right), matching the crate's
  single-threaded model.
-/

/-- Shared inner state for two `Split`s (struct `SharedSplitState`).
`iter` is the remaining response list of the inner iterator, `predicate`
chooses whether an item goes left (`false`) or right (`true`), `cache`
saves items skipped by one `Split` (front of the list = front of the
`VecDeque`), and `is_right_cached` records which split the cache is
saving items for. -/
structure SharedSplitState (α : Type) where
  iter : List (Option α)
  predicate : α → Bool
  cache : List α
  is_right_cached : Bool

/-- One of the pair of iterators (struct `Split`); it holds its side tag
`is_right`.  (The `Rc<RefCell<SharedSplitState>>` it shares with the
opposite iterator is threaded explicitly in this embedding.) -/
structure Split where
  is_right : Bool

/-- Constructor `SharedSplitState::new`: creates shared inner state for two `Split`s,
with an empty cache and `is_right_cached = false`. -/
def SharedSplitState.new {α : Type} (iter : List (Option α))
    (predicate : α → Bool) : SharedSplitState α :=
  { iter := iter, predicate := predicate, cache := [], is_right_cached := false }

/-- The `while let Some(next) = self.iter.next()` loop of
`SharedSplitState::next`: repeatedly pull from the iterator responses;
an item whose predicate value equals `is_right` is returned at once,
any other item is appended to the cache and `is_right_cached` is set to
the opposite of `is_right`; a `none` response ends the loop with no
result.  Returns (result, remaining responses, cache, is_right_cached). -/
def splitLoop {α : Type} (p : α → Bool) (is_right : Bool) :
    List (Option α) → List α → Bool → Option α × List (Option α) × List α × Bool
  | [], cache, irc => (none, [], cache, irc)
  | none :: rest, cache, irc => (none, rest, cache, irc)
  | some x :: rest, cache, irc =>
    if p x == is_right then
      (some x, rest, cache, irc)
    else
      splitLoop p is_right rest (cache ++ [x]) (!is_right)

/-- Method `SharedSplitState::next`: returns the next item for the given
`Split`.  First the cache is consulted (only when it serves this very
side); otherwise the inner iterator is advanced by `splitLoop`. -/
def SharedSplitState.next {α : Type} (s : SharedSplitState α)
    (is_right : Bool) : Option α × SharedSplitState α :=
  match is_right == s.is_right_cached, s.cache with
  | true, x :: rest => (some x, { s with cache := rest })
  | _, _ =>
    match splitLoop s.predicate is_right s.iter s.cache s.is_right_cached with
    | (r, it, c, irc) =>
      (r, { s with iter := it, cache := c, is_right_cached := irc })

/-- Instrumented variant of `splitLoop` that additionally counts, in its
first component, how many times the inner iterator's `next()` was
invoked (pulls) and how many times the predicate was evaluated. -/
def splitLoopInstr {α : Type} (p : α → Bool) (is_right : Bool) :
    List (Option α) → List α → Bool →
      (Nat × Nat) × Option α × List (Option α) × List α × Bool
  | [], cache, irc => ((1, 0), none, [], cache, irc)
  | none :: rest, cache, irc => ((1, 0), none, rest, cache, irc)
  | some x :: rest, cache, irc =>
    if p x == is_right then
      ((1, 1), some x, rest, cache, irc)
    else
      match splitLoopInstr p is_right rest (cache ++ [x]) (!is_right) with
      | ((pulls, evals), r) => ((pulls + 1, evals + 1), r)

/-- Instrumented variant of `SharedSplitState.next` that additionally
counts pulls of the inner iterator and predicate evaluations performed
by this one call. -/
def SharedSplitState.nextInstr {α : Type} (s : SharedSplitState α)
    (is_right : Bool) : (Nat × Nat) × Option α × SharedSplitState α :=
  match is_right == s.is_right_cached, s.cache with
  | true, x :: rest => ((0, 0), some x, { s with cache := rest })
  | _, _ =>
    match splitLoopInstr s.predicate is_right s.iter s.cache s.is_right_cached with
    | (cnt, r, it, c, irc) =>
      (cnt, r, { s with iter := it, cache := c, is_right_cached := irc })

/-- Method `<Split as Iterator>::next`: delegates to the shared state with the
handle's side tag. -/
def Split.next {α : Type} (h : Split) (s : SharedSplitState α) :
    Option α × SharedSplitState α :=
  s.next h.is_right

/-- Method `Splittable::split`: wraps the iterator and predicate in a fresh
`SharedSplitState` and returns it together with the two handles (the
left one with `is_right = false`, the right one with `is_right = true`).
In Rust the state is returned inside the two handles' `Rc`s; here it is
the first component. -/
def Splittable.split {α : Type} (iter : List (Option α))
    (predicate : α → Bool) : SharedSplitState α × Split × Split :=
  (SharedSplitState.new iter predicate,
   { is_right := false },
   { is_right := true })

/-- The shared state produced by `split` on a well-behaved iterator over
the finite sequence `S`. -/
def initState {α : Type} (S : List α) (p : α → Bool) : SharedSplitState α :=
  (Splittable.split (S.map some) p).1

/-- Runs a whole interleaving of calls: each entry of the schedule is the
side tag of one `produce-next` call; returns the list of (side, result)
pairs together with the final state. -/
def runCalls {α : Type} (s : SharedSplitState α) :
    List Bool → List (Bool × Option α) × SharedSplitState α
  | [] => ([], s)
  | b :: bs =>
    match s.next b with
    | (r, s') =>
      match runCalls s' bs with
      | (outs, sf) => ((b, r) :: outs, sf)

/-- Instrumented `runCalls`: additionally sums the pulls and predicate
evaluations of all calls of the schedule. -/
def runInstr {α : Type} (s : SharedSplitState α) :
    List Bool → (Nat × Nat) × List (Bool × Option α) × SharedSplitState α
  | [] => ((0, 0), [], s)
  | b :: bs =>
    match s.nextInstr b with
    | ((pu, ev), r, s') =>
      match runInstr s' bs with
      | ((pu', ev'), outs, sf) => ((pu + pu', ev + ev'), (b, r) :: outs, sf)

/-- The items a run produced for side `b`, in order. -/
def sideOut {α : Type} (b : Bool) (outs : List (Bool × Option α)) : List α :=
  outs.filterMap (fun pr => if pr.1 == b then pr.2 else none)

/-- Fuelled draining of one side: keeps calling `next b` until it
returns `none` (or fuel runs out), collecting the items produced. -/
def drainFuel {α : Type} (b : Bool) : Nat → SharedSplitState α → List α
  | 0, _ => []
  | n + 1, s =>
    match s.next b with
    | (some x, s') => x :: drainFuel b n s'
    | (none, _) => []

/-- Fully drains side `b`: the fuel `iter.length + cache.length + 1`
always suffices, since every produced item consumes a cache entry or an
iterator response. -/
def drainAll {α : Type} (b : Bool) (s : SharedSplitState α) : List α :=
  drainFuel b (s.iter.length + s.cache.length + 1) s

/-- The elements still unread in the iterator responses. -/
def elems {α : Type} (s : SharedSplitState α) : List α :=
  s.iter.filterMap id

/-- Well-behavedness of the modelled iterator: every remaining response
is an item (the fused model; `initState` satisfies it, and after the
response list is exhausted every pull yields `none`). -/
def WB {α : Type} (s : SharedSplitState α) : Prop :=
  ∀ r ∈ s.iter, Option.isSome r

/-- Abstraction: the full list of items side `b` is still owed — the
cached items when the cache serves `b`, then the unread items whose
predicate value is `b`. -/
def out {α : Type} (b : Bool) (s : SharedSplitState α) : List α :=
  (if b == s.is_right_cached then s.cache else [])
    ++ (elems s).filter (fun x => s.predicate x == b)

/-- The buffer invariant: every cached item belongs to the side recorded
by `is_right_cached` (its predicate value equals the marker). -/
def CacheInv {α : Type} (s : SharedSplitState α) : Prop :=
  ∀ x ∈ s.cache, s.predicate x = s.is_right_cached

lemma filterMap_id_map_some {α : Type} (m : List α) :
    (m.map some).filterMap id = m := by
  rw [List.filterMap_map]
  exact List.filterMap_some m

lemma elems_map_some {α : Type} (s : SharedSplitState α) (m : List α)
    (h : s.iter = m.map some) : elems s = m := by
  simp [elems, h, filterMap_id_map_some]

lemma forall_isSome_iter_eq {α : Type} (it : List (Option α))
    (h : ∀ r ∈ it, Option.isSome r) : it = (it.filterMap id).map some := by
  induction it with
  | nil => simp
  | cons r rest ih =>
    obtain ⟨a, rfl⟩ := Option.isSome_iff_exists.mp (h r (List.mem_cons_self r rest))
    have := ih (fun r hr => h r (List.mem_cons_of_mem _ hr))
    simp only [List.filterMap_cons, id]
    rw [List.map_cons, ← this]

lemma WB.iter_eq {α : Type} {s : SharedSplitState α} (h : WB s) :
    s.iter = (elems s).map some :=
  forall_isSome_iter_eq s.iter h

/-- Characterisation of the `while let` loop on a well-behaved remaining
iterator `l.map some`: the result is the first item of `l` whose
predicate value is `is_right`, the responses after it remain, and all
items before it are appended to the cache (setting `is_right_cached` to
the opposite side whenever at least one item was appended). -/
lemma splitLoop_eq {α : Type} (p : α → Bool) (b : Bool) (l : List α)
    (c0 : List α) (irc0 : Bool) :
    splitLoop p b (l.map some) c0 irc0 =
      ((l.dropWhile fun x => p x != b).head?,
       ((l.dropWhile fun x => p x != b).drop 1).map some,
       c0 ++ (l.takeWhile fun x => p x != b),
       if (l.takeWhile fun x => p x != b).isEmpty then irc0 else !b) := by
  induction l generalizing c0 irc0 with
  | nil => simp [splitLoop]
  | cons x tl ih =>
    by_cases hx : p x == b
    · have hx' : p x = b := by simpa using hx
      simp [splitLoop, hx, List.dropWhile_cons, List.takeWhile_cons, hx']
    · have hx' : (p x != b) = true := by
        simp [bne] at hx ⊢
        exact hx
      simp only [List.map_cons, splitLoop, hx, if_false, Bool.false_eq_true,
        ih (c0 ++ [x]) (!b), List.dropWhile_cons, List.takeWhile_cons, hx',
        if_true, List.isEmpty_cons]
      simp [List.append_assoc]

lemma filter_takeWhile_eq_nil {α : Type} (p : α → Bool) (b : Bool) (l : List α) :
    (l.takeWhile fun x => p x != b).filter (fun x => p x == b) = [] := by
  rw [List.filter_eq_nil_iff]
  intro a ha
  have h := List.mem_takeWhile_imp ha
  simp only [bne_iff_ne, ne_eq] at h
  simp [h]

lemma filter_takeWhile_eq_self {α : Type} (p : α → Bool) (b : Bool) (l : List α) :
    (l.takeWhile fun x => p x != b).filter (fun x => p x == !b)
      = l.takeWhile fun x => p x != b := by
  rw [List.filter_eq_self]
  intro a ha
  have h := List.mem_takeWhile_imp ha
  simp only [bne_iff_ne, ne_eq] at h
  cases hpa : p a <;> cases b <;> simp_all

lemma dropWhile_cons_head {α : Type} {p : α → Bool} {b : Bool} {l : List α}
    {y : α} {tl : List α} (hdw : l.dropWhile (fun x => p x != b) = y :: tl) :
    p y = b := by
  have h := List.head?_dropWhile_not (fun x => p x != b) l
  rw [hdw] at h
  simp only [List.head?_cons] at h
  simpa using h

lemma filter_of_dropWhile_nil {α : Type} {p : α → Bool} {b : Bool} {l : List α}
    (hdw : l.dropWhile (fun x => p x != b) = []) :
    l.filter (fun x => p x == b) = [] := by
  conv_lhs => rw [← List.takeWhile_append_dropWhile (fun x => p x != b) l]
  rw [List.filter_append, hdw, filter_takeWhile_eq_nil]
  simp

lemma filter_of_dropWhile_cons {α : Type} {p : α → Bool} {b : Bool} {l : List α}
    {y : α} {tl : List α} (hdw : l.dropWhile (fun x => p x != b) = y :: tl) :
    l.filter (fun x => p x == b) = y :: tl.filter (fun x => p x == b) := by
  conv_lhs => rw [← List.takeWhile_append_dropWhile (fun x => p x != b) l]
  rw [List.filter_append, hdw, filter_takeWhile_eq_nil, List.nil_append,
    List.filter_cons]
  simp [dropWhile_cons_head hdw]

lemma filter_not_of_dropWhile_nil {α : Type} {p : α → Bool} {b : Bool} {l : List α}
    (hdw : l.dropWhile (fun x => p x != b) = []) :
    l.filter (fun x => p x == !b) = l.takeWhile fun x => p x != b := by
  conv_lhs => rw [← List.takeWhile_append_dropWhile (fun x => p x != b) l]
  rw [List.filter_append, hdw, filter_takeWhile_eq_self]
  simp

lemma filter_not_of_dropWhile_cons {α : Type} {p : α → Bool} {b : Bool}
    {l : List α} {y : α} {tl : List α}
    (hdw : l.dropWhile (fun x => p x != b) = y :: tl) :
    l.filter (fun x => p x == !b)
      = (l.takeWhile fun x => p x != b) ++ tl.filter (fun x => p x == !b) := by
  conv_lhs => rw [← List.takeWhile_append_dropWhile (fun x => p x != b) l]
  rw [List.filter_append, hdw, filter_takeWhile_eq_self, List.filter_cons]
  have hy : p y = b := dropWhile_cons_head hdw
  cases b <;> simp [hy]

/-- One `produce-next` call, seen through the abstraction `out`: the
call returns the head of the list of items its side is owed, afterwards
that side is owed the tail, the other side is owed exactly what it was
owed before, and well-behavedness is preserved. -/
lemma loop_out {α : Type} (p : α → Bool) (b irc0 : Bool) (l c0 : List α)
    (hc : b = irc0 → c0 = []) :
    ((l.dropWhile fun x => p x != b).head?
        = (out b ⟨l.map some, p, c0, irc0⟩).head?) ∧
    out b ⟨((l.dropWhile fun x => p x != b).drop 1).map some, p,
        c0 ++ (l.takeWhile fun x => p x != b),
        if (l.takeWhile fun x => p x != b).isEmpty then irc0 else !b⟩
      = (out b ⟨l.map some, p, c0, irc0⟩).tail ∧
    out (!b) ⟨((l.dropWhile fun x => p x != b).drop 1).map some, p,
        c0 ++ (l.takeWhile fun x => p x != b),
        if (l.takeWhile fun x => p x != b).isEmpty then irc0 else !b⟩
      = out (!b) ⟨l.map some, p, c0, irc0⟩ ∧
    WB (⟨((l.dropWhile fun x => p x != b).drop 1).map some, p,
        c0 ++ (l.takeWhile fun x => p x != b),
        if (l.takeWhile fun x => p x != b).isEmpty then irc0 else !b⟩ :
          SharedSplitState α) := by
  have hnb : ∀ b' : Bool, (!b' == b') = false := by decide
  by_cases hbi : b = irc0
  · have hc0 : c0 = [] := hc hbi
    subst hbi
    subst hc0
    rcases hdw : l.dropWhile (fun x => p x != b) with _ | ⟨y, tl⟩
    · have hf := filter_of_dropWhile_nil hdw
      have hf' := filter_not_of_dropWhile_nil hdw
      rcases htw : l.takeWhile (fun x => p x != b) with _ | ⟨z, zs⟩ <;>
        refine ⟨?_, ?_, ?_, ?_⟩ <;>
          simp [out, elems, filterMap_id_map_some, hnb, WB, hf, hf', hdw, htw]
    · have hf := filter_of_dropWhile_cons hdw
      have hf' := filter_not_of_dropWhile_cons hdw
      rcases htw : l.takeWhile (fun x => p x != b) with _ | ⟨z, zs⟩ <;>
        refine ⟨?_, ?_, ?_, ?_⟩ <;>
          simp [out, elems, filterMap_id_map_some, hnb, WB, hf, hf', hdw, htw]
  · have hbi' : (b == irc0) = false := by simp [hbi]
    have hirc : irc0 = !b := by cases b <;> cases irc0 <;> simp_all
    subst hirc
    rcases hdw : l.dropWhile (fun x => p x != b) with _ | ⟨y, tl⟩
    · have hf := filter_of_dropWhile_nil hdw
      have hf' := filter_not_of_dropWhile_nil hdw
      rcases htw : l.takeWhile (fun x => p x != b) with _ | ⟨z, zs⟩ <;>
        refine ⟨?_, ?_, ?_, ?_⟩ <;>
          simp [out, elems, filterMap_id_map_some, hnb, WB, hf, hf', hdw, htw,
            hbi']
    · have hf := filter_of_dropWhile_cons hdw
      have hf' := filter_not_of_dropWhile_cons hdw
      rcases htw : l.takeWhile (fun x => p x != b) with _ | ⟨z, zs⟩ <;>
        refine ⟨?_, ?_, ?_, ?_⟩ <;>
          simp [out, elems, filterMap_id_map_some, hnb, WB, hf, hf', hdw, htw,
            hbi']

theorem next_step {α : Type} (s : SharedSplitState α) (b : Bool) (h : WB s) :
    (s.next b).1 = (out b s).head? ∧
    out b (s.next b).2 = (out b s).tail ∧
    out (!b) (s.next b).2 = out (!b) s ∧
    WB (s.next b).2 := by
  obtain ⟨it, p, c, irc⟩ := s
  obtain ⟨l, rfl⟩ : ∃ l, it = l.map some :=
    ⟨it.filterMap id, forall_isSome_iter_eq it h⟩
  have hnb : ∀ b' : Bool, (!b' == b') = false := by decide
  by_cases hbi : b = irc
  · subst hbi
    cases c with
    | cons x rest =>
      refine ⟨?_, ?_, ?_, ?_⟩ <;>
        simp [SharedSplitState.next, out, elems, filterMap_id_map_some, hnb, WB]
    | nil =>
      have hnext : SharedSplitState.next ⟨l.map some, p, [], b⟩ b
          = (((l.dropWhile fun x => p x != b).head?),
             ⟨((l.dropWhile fun x => p x != b).drop 1).map some, p,
              [] ++ (l.takeWhile fun x => p x != b),
              if (l.takeWhile fun x => p x != b).isEmpty then b else !b⟩) := by
        simp [SharedSplitState.next, splitLoop_eq]
      rw [hnext]
      simpa using loop_out p b b l [] (fun _ => rfl)
  · have hbi' : (b == irc) = false := by simp [hbi]
    have hirc : irc = !b := by cases b <;> cases irc <;> simp_all
    subst hirc
    have hnext : SharedSplitState.next ⟨l.map some, p, c, !b⟩ b
        = (((l.dropWhile fun x => p x != b).head?),
           ⟨((l.dropWhile fun x => p x != b).drop 1).map some, p,
            c ++ (l.takeWhile fun x => p x != b),
            if (l.takeWhile fun x => p x != b).isEmpty then !b else !b⟩) := by
      simp [SharedSplitState.next, splitLoop_eq, hbi']
    rw [hnext]
    simpa using loop_out p b (!b) l c (fun hb => absurd hb hbi)

lemma head?_toList_append_tail {α : Type} (l : List α) :
    l.head?.toList ++ l.tail = l := by
  cases l <;> simp

/-- Run invariant: over any interleaving, the items already produced for
a side followed by the items that side is still owed make up exactly
what it was owed at the start; well-behavedness is preserved. -/
theorem runCalls_out {α : Type} (s : SharedSplitState α) (cs : List Bool)
    (b : Bool) (h : WB s) :
    sideOut b (runCalls s cs).1 ++ out b (runCalls s cs).2 = out b s ∧
    WB (runCalls s cs).2 := by
  induction cs generalizing s with
  | nil => simpa [runCalls, sideOut]
  | cons c cs ih =>
    obtain ⟨h1, h2, h3, h4⟩ := next_step s c h
    rcases hn : s.next c with ⟨r, s'⟩
    rcases hr : runCalls s' cs with ⟨outs, sf⟩
    obtain ⟨ih1, ih2⟩ := ih s' (by rw [hn] at h4; exact h4)
    rw [hr] at ih1 ih2
    rw [hn] at h1 h2 h3
    refine ⟨?_, by simpa [runCalls, hn, hr] using ih2⟩
    by_cases hcb : c = b
    · subst hcb
      simp only [runCalls, hn, hr, sideOut, List.filterMap_cons,
        beq_self_eq_true]
      cases r with
      | none =>
        simp only [Option.toList] at h1 h2 ⊢
        rw [← head?_toList_append_tail (out c s), ← h1, ← h2]
        simpa [sideOut] using ih1
      | some x =>
        rw [← head?_toList_append_tail (out c s), ← h1, ← h2]
        simpa [sideOut] using ih1
    · have hb : b = !c := by
        cases b <;> cases c <;> first | rfl | exact absurd rfl hcb
      subst hb
      have hne : (c == !c) = false := by cases c <;> rfl
      simp only [runCalls, hn, hr, sideOut, List.filterMap_cons, hne]
      rw [← h3]
      simpa [sideOut] using ih1

lemma drainFuel_eq_out {α : Type} (b : Bool) :
    ∀ (n : Nat) (s : SharedSplitState α), WB s → (out b s).length ≤ n →
      drainFuel b n s = out b s := by
  intro n
  induction n with
  | zero =>
    intro s _ hlen
    have : out b s = [] := List.length_eq_zero.mp (Nat.le_zero.mp hlen)
    simp [drainFuel, this]
  | succ n ih =>
    intro s h hlen
    obtain ⟨h1, h2, h3, h4⟩ := next_step s b h
    rcases hn : s.next b with ⟨r, s'⟩
    rw [hn] at h1 h2 h4
    rcases ho : out b s with _ | ⟨x, xs⟩
    · rw [ho] at h1
      simp only [List.head?_nil] at h1
      simp [drainFuel, hn, h1, ho]
    · rw [ho] at h1 h2
      simp only [List.head?_cons, List.tail_cons] at h1 h2
      have hlen' : (out b s').length ≤ n := by
        rw [h2]
        rw [ho] at hlen
        simp only [List.length_cons] at hlen
        omega
      simp [drainFuel, hn, h1, ho, ih s' h4 hlen', h2]

lemma out_length_le {α : Type} (b : Bool) (s : SharedSplitState α) :
    (out b s).length ≤ s.cache.length + s.iter.length := by
  have h1 : ((elems s).filter fun x => s.predicate x == b).length ≤ s.iter.length :=
    le_trans (List.length_filter_le _ _) (List.length_filterMap_le _ _)
  unfold out
  split
  · simp only [List.length_append]
    omega
  · simp only [List.nil_append]
    omega

lemma drainAll_eq_out {α : Type} (b : Bool) (s : SharedSplitState α)
    (h : WB s) : drainAll b s = out b s :=
  drainFuel_eq_out b _ s h
    (le_trans (out_length_le b s) (by omega))

lemma initState_WB {α : Type} (S : List α) (p : α → Bool) :
    WB (initState S p) := by
  simp [initState, Splittable.split, SharedSplitState.new, WB]

lemma out_initState {α : Type} (S : List α) (p : α → Bool) (b : Bool) :
    out b (initState S p) = S.filter (fun x => p x == b) := by
  simp [out, initState, Splittable.split, SharedSplitState.new, elems,
    filterMap_id_map_some]

/-- Under any interleaving, the items a side already received followed
by fully draining that side give exactly the predicate-partition of the
input for that side. -/
lemma partition_drain {α : Type} (S : List α) (p : α → Bool)
    (cs : List Bool) (b : Bool) :
    sideOut b (runCalls (initState S p) cs).1
      ++ drainAll b (runCalls (initState S p) cs).2
      = S.filter (fun x => p x == b) := by
  obtain ⟨h1, h2⟩ := runCalls_out (initState S p) cs b (initState_WB S p)
  rw [drainAll_eq_out b _ h2, h1, out_initState]

/-- The loop only ever appends items of the side opposite to the caller
and marks the cache accordingly: if the incoming cache already respects
the marker (and is empty whenever the marker equals the caller's side),
then every item in the outgoing cache has predicate value equal to the
outgoing marker. -/
lemma splitLoop_inv {α : Type} (p : α → Bool) (b : Bool) :
    ∀ (it : List (Option α)) (c0 : List α) (irc0 : Bool),
      (∀ x ∈ c0, p x = irc0) → (c0 ≠ [] → irc0 = !b) →
      ∀ x ∈ (splitLoop p b it c0 irc0).2.2.1,
        p x = (splitLoop p b it c0 irc0).2.2.2 := by
  intro it
  induction it with
  | nil => intro c0 irc0 h1 _ x hx; simpa [splitLoop] using h1 x hx
  | cons r rest ih =>
    intro c0 irc0 h1 h2 x hx
    cases r with
    | none => simpa [splitLoop] using h1 x (by simpa [splitLoop] using hx)
    | some y =>
      by_cases hy : p y == b
      · simp only [splitLoop, hy, if_true] at hx ⊢
        exact h1 x hx
      · have hy' : p y = !b := by
          cases hpy : p y <;> cases b <;> simp_all
        simp only [splitLoop, hy, Bool.false_eq_true, if_false] at hx ⊢
        refine ih (c0 ++ [y]) (!b) ?_ (fun _ => rfl) x hx
        intro z hz
        rcases List.mem_append.mp hz with hz | hz
        · rcases List.eq_nil_or_concat c0 with rfl | _
          · simp at hz
          · rw [h1 z hz, h2 (by rintro rfl; simp at hz)]
        · simp only [List.mem_singleton] at hz
          subst hz
          exact hy'

/-- Preservation of the buffer invariant by `next`. -/
lemma next_cacheInv {α : Type} (s : SharedSplitState α) (b : Bool)
    (h : CacheInv s) : CacheInv (s.next b).2 := by
  obtain ⟨it, p, c, irc⟩ := s
  by_cases hbi : b = irc
  · subst hbi
    cases c with
    | cons x rest =>
      have hred : (SharedSplitState.next ⟨it, p, x :: rest, b⟩ b).2
          = ⟨it, p, rest, b⟩ := by
        simp [SharedSplitState.next]
      rw [hred]
      intro y hy
      exact h y (List.mem_cons_of_mem _ hy)
    | nil =>
      rcases hsl : splitLoop p b it [] b with ⟨r, it', c', irc'⟩
      have hred : (SharedSplitState.next ⟨it, p, [], b⟩ b).2
          = ⟨it', p, c', irc'⟩ := by
        simp [SharedSplitState.next, hsl]
      rw [hred]
      intro y hy
      have := splitLoop_inv p b it [] b (by simp) (by simp)
      rw [hsl] at this
      exact this y hy
  · have hbi' : (b == irc) = false := by simp [hbi]
    have hirc : irc = !b := by cases b <;> cases irc <;> simp_all
    rcases hsl : splitLoop p b it c irc with ⟨r, it', c', irc'⟩
    have hred : (SharedSplitState.next ⟨it, p, c, irc⟩ b).2
        = ⟨it', p, c', irc'⟩ := by
      simp [SharedSplitState.next, hbi', hsl]
    rw [hred]
    intro y hy
    have := splitLoop_inv p b it c irc (fun z hz => h z hz) (fun _ => hirc)
    rw [hsl] at this
    exact this y hy

/-- Claim C1: for every finite input sequence `S`, every predicate `p`,
and every interleaving of produce-next calls on the two handles returned
by `split`, fully draining the left handle yields exactly the items of
`S` with `p item = false` in their original relative order, and fully
draining the right handle yields exactly the items with `p item = true`
in their original relative order; in particular no item is returned to
both sides, dropped, or duplicated. -/
theorem claim_c1_partition {α : Type} (S : List α) (p : α → Bool)
    (cs : List Bool) :
    (sideOut (Splittable.split (S.map some) p).2.1.is_right
        (runCalls (initState S p) cs).1
      ++ drainAll (Splittable.split (S.map some) p).2.1.is_right
        (runCalls (initState S p) cs).2
      = S.filter (fun x => p x == false)) ∧
    (sideOut (Splittable.split (S.map some) p).2.2.is_right
        (runCalls (initState S p) cs).1
      ++ drainAll (Splittable.split (S.map some) p).2.2.is_right
        (runCalls (initState S p) cs).2
      = S.filter (fun x => p x == true)) :=
  ⟨partition_drain S p cs false, partition_drain S p cs true⟩

/-- Claim C5: `split` never pulls an item from the underlying sequence
and never invokes the predicate at construction time: the shared state
it returns holds the iterator responses unconsumed, an empty cache and
the untouched predicate, and the two handles carry the side tags
`false` (left) and `true` (right); construction is a total operation
with no error conditions. -/
theorem claim_c5_lazy_construction {α : Type} (it : List (Option α))
    (p : α → Bool) :
    (Splittable.split it p).1.iter = it ∧
    (Splittable.split it p).1.cache = [] ∧
    (Splittable.split it p).1.predicate = p ∧
    (Splittable.split it p).2.1.is_right = false ∧
    (Splittable.split it p).2.2.is_right = true :=
  ⟨rfl, rfl, rfl, rfl, rfl⟩

/-- Claim C6: the buffer invariant holds initially and is preserved by
every produce-next call — all buffered items belong to the single side
recorded by `is_right_cached`, so items for both sides are never mixed —
and while a buffered item for the requesting side remains, the call pops
it without advancing the underlying sequence. -/
theorem claim_c6_invariant {α : Type} (S : List α) (p : α → Bool)
    (s : SharedSplitState α) (b : Bool) (x : α) (xs : List α) :
    CacheInv (initState S p) ∧
    (CacheInv s → CacheInv (s.next b).2) ∧
    (b = s.is_right_cached → s.cache = x :: xs →
      (s.next b).1 = some x ∧ (s.next b).2.iter = s.iter ∧
      (s.next b).2.cache = xs) := by
  refine ⟨?_, next_cacheInv s b, ?_⟩
  · intro y hy
    simp [initState, Splittable.split, SharedSplitState.new] at hy
  · intro hbi hc
    obtain ⟨it, pp, c, irc⟩ := s
    simp only at hbi hc
    subst hbi
    subst hc
    refine ⟨?_, ?_, ?_⟩ <;> simp [SharedSplitState.next]

/-- Witness for C6 at concrete inputs: the invariant is preserved by a
call that buffers an item, and the cache-hit path pops the front item. -/
theorem claim_c6_invariant_witness :
    CacheInv ((⟨[some 2], fun v : Nat => v == 2, [1], false⟩ :
        SharedSplitState Nat).next true).2 ∧
    ((⟨[some 9], fun v : Nat => v == 2, [5], false⟩ :
        SharedSplitState Nat).next false).1 = some 5 := by
  constructor
  · exact (claim_c6_invariant [] (fun _ => false)
      (⟨[some 2], fun v : Nat => v == 2, [1], false⟩ : SharedSplitState Nat)
      true 0 []).2.1 (by unfold CacheInv; decide)
  · exact ((claim_c6_invariant [] (fun _ => false)
      (⟨[some 9], fun v : Nat => v == 2, [5], false⟩ : SharedSplitState Nat)
      false 5 []).2.2 rfl rfl).1

/-- Claim C7: when the side marker equals the requested side and the
buffer is non-empty, produce-next pops and returns the front buffered
item, performing no pull of the underlying sequence and no predicate
evaluation (the instrumentation counters of the call are zero and the
iterator responses are untouched). -/
theorem claim_c7_cache_hit {α : Type} (s : SharedSplitState α) (b : Bool)
    (x : α) (xs : List α) (hbi : b = s.is_right_cached)
    (hc : s.cache = x :: xs) :
    s.nextInstr b = ((0, 0), some x, { s with cache := xs }) := by
  obtain ⟨it, p, c, irc⟩ := s
  simp only at hbi hc
  subst hbi
  subst hc
  simp [SharedSplitState.nextInstr]

/-- Witness for C7 at a concrete input. -/
theorem claim_c7_cache_hit_witness :
    (⟨[some 5], fun v : Nat => v == 9, [7], false⟩ :
        SharedSplitState Nat).nextInstr false
      = ((0, 0), some 7,
         (⟨[some 5], fun v : Nat => v == 9, [], false⟩ :
           SharedSplitState Nat)) :=
  claim_c7_cache_hit _ false 7 [] rfl rfl

lemma next_none_iter_nil {α : Type} (s : SharedSplitState α) (b : Bool)
    (h : WB s) (hn : (s.next b).1 = none) : (s.next b).2.iter = [] := by
  obtain ⟨it, p, c, irc⟩ := s
  obtain ⟨l, rfl⟩ : ∃ l, it = l.map some :=
    ⟨it.filterMap id, forall_isSome_iter_eq it h⟩
  by_cases hbi : b = irc
  · subst hbi
    cases c with
    | cons x rest => simp [SharedSplitState.next] at hn
    | nil =>
      rcases hdw : l.dropWhile (fun x => p x != b) with _ | ⟨y, tl⟩
      · simp [SharedSplitState.next, splitLoop_eq, hdw]
      · simp [SharedSplitState.next, splitLoop_eq, hdw] at hn
  · have hbi' : (b == irc) = false := by simp [hbi]
    rcases hdw : l.dropWhile (fun x => p x != b) with _ | ⟨y, tl⟩
    · simp [SharedSplitState.next, splitLoop_eq, hbi', hdw]
    · simp [SharedSplitState.next, splitLoop_eq, hbi', hdw] at hn

/-- Claim C9: a "no item" result on one handle does not mean the other
handle is finished: when the underlying iterator is exhausted while the
buffer holds items for side `b`, a produce-next call for the opposite
side returns "no item" and leaves the state unchanged, yet side `b`
still drains exactly the buffered items, in FIFO order. -/
theorem claim_c9_buffered_after_none {α : Type} (s : SharedSplitState α)
    (b : Bool) (hiter : s.iter = []) (hirc : s.is_right_cached = b) :
    s.next (!b) = (none, s) ∧ drainAll b s = s.cache := by
  constructor
  · obtain ⟨it, p, c, irc⟩ := s
    simp only at hiter hirc
    subst hiter
    subst hirc
    have hne : ∀ b' : Bool, (!b' == b') = false := by decide
    simp [SharedSplitState.next, hne, splitLoop]
  · have hWB : WB s := by
      intro r hr
      rw [hiter] at hr
      simp at hr
    rw [drainAll_eq_out b s hWB]
    unfold out
    simp [elems, hiter, hirc]

/-- Witness for C9 at a concrete input: with the iterator exhausted and
`[1, 2]` buffered for the left side, a right call returns "no item" but
the left side still drains `[1, 2]`. -/
theorem claim_c9_buffered_after_none_witness :
    (⟨[], fun v : Nat => v == 9, [1, 2], false⟩ :
        SharedSplitState Nat).next true
      = (none,
         (⟨[], fun v : Nat => v == 9, [1, 2], false⟩ : SharedSplitState Nat)) ∧
    drainAll false
      (⟨[], fun v : Nat => v == 9, [1, 2], false⟩ : SharedSplitState Nat)
      = [1, 2] := by
  have h := claim_c9_buffered_after_none
    (⟨[], fun v : Nat => v == 9, [1, 2], false⟩ : SharedSplitState Nat)
    false rfl rfl
  simpa using h

/-- Claim C10: on a well-behaved source, produce-next returns "no item"
exactly when the buffer holds nothing for the requesting side and no
unread item's predicate value equals that side (the call then drives the
iterator to exhaustion); absence is an ordinary `none` result, not an
error. -/
theorem claim_c10_none_iff {α : Type} (s : SharedSplitState α) (b : Bool)
    (h : WB s) :
    ((s.next b).1 = none ↔
      ((b = s.is_right_cached → s.cache = []) ∧
       (elems s).filter (fun x => s.predicate x == b) = [])) ∧
    ((s.next b).1 = none → (s.next b).2.iter = []) := by
  obtain ⟨h1, -, -, -⟩ := next_step s b h
  refine ⟨?_, next_none_iter_nil s b h⟩
  rw [h1]
  rw [List.head?_eq_none_iff]
  unfold out
  rw [List.append_eq_nil]
  constructor
  · rintro ⟨hc, hf⟩
    refine ⟨?_, hf⟩
    intro hbi
    rw [hbi] at hc
    simpa using hc
  · rintro ⟨hc, hf⟩
    refine ⟨?_, hf⟩
    by_cases hbi : b = s.is_right_cached
    · simp [hbi, hc hbi]
    · simp [hbi]

/-- Witness for C10 at a concrete input: with input `[1]` and an
always-true predicate, a left call returns "no item", the buffer holds
nothing for the left side, no unread item maps to the left side, and the
call exhausts the iterator. -/
theorem claim_c10_none_iff_witness :
    ((((initState [1] (fun _ : Nat => true)).next false).1 = none ↔
      ((false = (initState [1] (fun _ : Nat => true)).is_right_cached →
         (initState [1] (fun _ : Nat => true)).cache = []) ∧
       (elems (initState [1] (fun _ : Nat => true))).filter
         (fun x => (initState [1] (fun _ : Nat => true)).predicate x == false)
         = [])) ∧
     (((initState [1] (fun _ : Nat => true)).next false).1 = none →
       ((initState [1] (fun _ : Nat => true)).next false).2.iter = [])) :=
  claim_c10_none_iff (initState [1] (fun _ : Nat => true)) false
    (by unfold WB; decide)

lemma splitLoopInstr_proj {α : Type} (p : α → Bool) (b : Bool) :
    ∀ (it : List (Option α)) (c0 : List α) (irc0 : Bool),
      (splitLoopInstr p b it c0 irc0).2 = splitLoop p b it c0 irc0 := by
  intro it
  induction it with
  | nil => intro c0 irc0; simp [splitLoopInstr, splitLoop]
  | cons r rest ih =>
    intro c0 irc0
    cases r with
    | none => simp [splitLoopInstr, splitLoop]
    | some y =>
      by_cases hy : p y == b
      · simp [splitLoopInstr, splitLoop, hy]
      · have h := ih (c0 ++ [y]) (!b)
        rcases hsl : splitLoopInstr p b rest (c0 ++ [y]) (!b)
          with ⟨⟨pu, ev⟩, r'⟩
        rw [hsl] at h
        simp only at h
        simp [splitLoopInstr, splitLoop, hy, hsl, h]

lemma nextInstr_proj {α : Type} (s : SharedSplitState α) (b : Bool) :
    (s.nextInstr b).2 = s.next b := by
  obtain ⟨it, p, c, irc⟩ := s
  cases hbv : b == irc with
  | true =>
    cases c with
    | cons x rest => simp [SharedSplitState.nextInstr, SharedSplitState.next, hbv]
    | nil =>
      have hproj := splitLoopInstr_proj p b it [] irc
      rcases hsl : splitLoopInstr p b it [] irc with ⟨⟨pu, ev⟩, r, it', c', irc'⟩
      rw [hsl] at hproj
      simp [SharedSplitState.nextInstr, SharedSplitState.next, hbv, hsl,
        ← hproj]
  | false =>
    cases c with
    | cons x rest =>
      have hproj := splitLoopInstr_proj p b it (x :: rest) irc
      rcases hsl : splitLoopInstr p b it (x :: rest) irc
        with ⟨⟨pu, ev⟩, r, it', c', irc'⟩
      rw [hsl] at hproj
      simp [SharedSplitState.nextInstr, SharedSplitState.next, hbv, hsl,
        ← hproj]
    | nil =>
      have hproj := splitLoopInstr_proj p b it [] irc
      rcases hsl : splitLoopInstr p b it [] irc with ⟨⟨pu, ev⟩, r, it', c', irc'⟩
      rw [hsl] at hproj
      simp [SharedSplitState.nextInstr, SharedSplitState.next, hbv, hsl,
        ← hproj]

/-- Pull and predicate-evaluation counts of one loop run on a
well-behaved remaining iterator: one pull per item scanned (plus the
final exhaustion pull when no matching item exists) and exactly one
predicate evaluation per item consumed. -/
lemma splitLoopInstr_counts {α : Type} (p : α → Bool) (b : Bool) :
    ∀ (l : List α) (c0 : List α) (irc0 : Bool),
      (splitLoopInstr p b (l.map some) c0 irc0).1
        = ((l.takeWhile fun x => p x != b).length + 1,
           (l.takeWhile fun x => p x != b).length
             + (if (l.dropWhile fun x => p x != b).isEmpty then 0 else 1)) := by
  intro l
  induction l with
  | nil => intro c0 irc0; simp [splitLoopInstr]
  | cons y tl ih =>
    intro c0 irc0
    by_cases hy : p y == b
    · have hy' : p y = b := by simpa using hy
      simp [splitLoopInstr, hy, List.takeWhile_cons, List.dropWhile_cons, hy']
    · have hy' : ¬ p y = b := by simpa using hy
      have h := ih (c0 ++ [y]) (!b)
      rcases hsl : splitLoopInstr p b (tl.map some) (c0 ++ [y]) (!b)
        with ⟨⟨pu, ev⟩, r⟩
      rw [hsl] at h
      simp only [Prod.mk.injEq] at h
      obtain ⟨hpu, hev⟩ := h
      subst hpu
      subst hev
      simp [splitLoopInstr, hy, List.takeWhile_cons, List.dropWhile_cons, hy',
        hsl, Nat.add_assoc, Nat.add_comm, Nat.add_left_comm]

/-- Bounds for one run of the loop on a well-behaved remaining iterator:
some prefix of `j` elements is consumed, the predicate is evaluated
exactly `j` times, and at most `j + 1` pulls happen (that is, at most
one exhaustion check beyond the consumed elements). -/
lemma splitLoop_bounds {α : Type} (p : α → Bool) (b : Bool) (l c0 : List α)
    (irc0 : Bool) :
    ∃ j, j ≤ l.length ∧
      (splitLoop p b (l.map some) c0 irc0).2.1 = (l.drop j).map some ∧
      (splitLoopInstr p b (l.map some) c0 irc0).1.2 = j ∧
      (splitLoopInstr p b (l.map some) c0 irc0).1.1 ≤ j + 1 ∧
      (splitLoopInstr p b (l.map some) c0 irc0).1.2
        ≤ (splitLoopInstr p b (l.map some) c0 irc0).1.1 := by
  have hsplit : (l.takeWhile fun x => p x != b)
      ++ (l.dropWhile fun x => p x != b) = l :=
    List.takeWhile_append_dropWhile _ _
  have hdrop := List.drop_left (l.takeWhile fun x => p x != b)
    (l.dropWhile fun x => p x != b)
  rw [hsplit] at hdrop
  have hlen : (l.takeWhile fun x => p x != b).length
      + (l.dropWhile fun x => p x != b).length = l.length := by
    rw [← List.length_append, hsplit]
  rcases hdw : l.dropWhile (fun x => p x != b) with _ | ⟨y, dtl⟩
  · refine ⟨(l.takeWhile fun x => p x != b).length, ?_, ?_, ?_, ?_, ?_⟩
    · rw [hdw] at hlen
      simp only [List.length_nil] at hlen
      omega
    · rw [splitLoop_eq, hdrop, hdw]
      simp
    · rw [splitLoopInstr_counts, hdw]
      simp
    · rw [splitLoopInstr_counts]
    · rw [splitLoopInstr_counts, hdw]
      simp
  · refine ⟨(l.takeWhile fun x => p x != b).length + 1, ?_, ?_, ?_, ?_, ?_⟩
    · rw [hdw] at hlen
      simp only [List.length_cons] at hlen
      omega
    · have hcomm : l.drop ((l.takeWhile fun x => p x != b).length + 1)
          = (l.drop (l.takeWhile fun x => p x != b).length).drop 1 := by
        rw [List.drop_drop]
      rw [splitLoop_eq, hcomm, hdrop, hdw]
    · rw [splitLoopInstr_counts, hdw]
      simp
    · rw [splitLoopInstr_counts]
      simp
    · rw [splitLoopInstr_counts, hdw]
      simp

/-- One instrumented call, on a state whose remaining responses are the
well-behaved `l.map some`: some prefix of `j` elements is consumed
(leaving the suffix untouched — no element is ever re-pulled), the
predicate is evaluated exactly once per consumed element, at most one
extra pull (the exhaustion check) happens beyond the consumed elements,
and pulls are at least the evaluations. -/
lemma nextInstr_step {α : Type} (s : SharedSplitState α) (b : Bool)
    (l : List α) (hiter : s.iter = l.map some) :
    ∃ j, j ≤ l.length ∧
      (s.nextInstr b).2.2.iter = (l.drop j).map some ∧
      (s.nextInstr b).1.2 = j ∧
      (s.nextInstr b).1.1 ≤ j + 1 ∧
      (s.nextInstr b).1.2 ≤ (s.nextInstr b).1.1 := by
  obtain ⟨it, p, c, irc⟩ := s
  simp only at hiter
  subst hiter
  have hloop : ∀ c0 : List α,
      (SharedSplitState.nextInstr ⟨l.map some, p, c0, irc⟩ b).1
          = (splitLoopInstr p b (l.map some) c0 irc).1 →
      (SharedSplitState.nextInstr ⟨l.map some, p, c0, irc⟩ b).2.2.iter
          = (splitLoop p b (l.map some) c0 irc).2.1 →
      ∃ j, j ≤ l.length ∧
        (SharedSplitState.nextInstr ⟨l.map some, p, c0, irc⟩ b).2.2.iter
          = (l.drop j).map some ∧
        (SharedSplitState.nextInstr ⟨l.map some, p, c0, irc⟩ b).1.2 = j ∧
        (SharedSplitState.nextInstr ⟨l.map some, p, c0, irc⟩ b).1.1 ≤ j + 1 ∧
        (SharedSplitState.nextInstr ⟨l.map some, p, c0, irc⟩ b).1.2
          ≤ (SharedSplitState.nextInstr ⟨l.map some, p, c0, irc⟩ b).1.1 := by
    intro c0 h1 h2
    obtain ⟨j, hj, hit, hev, hpu, hevpu⟩ := splitLoop_bounds p b l c0 irc
    exact ⟨j, hj, by rw [h2]; exact hit, by rw [h1]; exact hev,
      by rw [h1]; exact hpu, by rw [h1]; exact hevpu⟩
  cases hbv : b == irc with
  | true =>
    cases c with
    | cons x rest =>
      refine ⟨0, by omega, ?_, ?_, ?_, ?_⟩ <;>
        simp [SharedSplitState.nextInstr, hbv]
    | nil =>
      refine hloop [] ?_ ?_
      · rcases hsl : splitLoopInstr p b (l.map some) [] irc
          with ⟨⟨pu, ev⟩, r, it', c', irc'⟩
        simp [SharedSplitState.nextInstr, hbv, hsl]
      · rw [nextInstr_proj]
        rcases hsl : splitLoop p b (l.map some) [] irc
          with ⟨r, it', c', irc'⟩
        simp [SharedSplitState.next, hbv, hsl]
  | false =>
    cases c with
    | cons x rest =>
      refine hloop (x :: rest) ?_ ?_
      · rcases hsl : splitLoopInstr p b (l.map some) (x :: rest) irc
          with ⟨⟨pu, ev⟩, r, it', c', irc'⟩
        simp [SharedSplitState.nextInstr, hbv, hsl]
      · rw [nextInstr_proj]
        rcases hsl : splitLoop p b (l.map some) (x :: rest) irc
          with ⟨r, it', c', irc'⟩
        simp [SharedSplitState.next, hbv, hsl]
    | nil =>
      refine hloop [] ?_ ?_
      · rcases hsl : splitLoopInstr p b (l.map some) [] irc
          with ⟨⟨pu, ev⟩, r, it', c', irc'⟩
        simp [SharedSplitState.nextInstr, hbv, hsl]
      · rw [nextInstr_proj]
        rcases hsl : splitLoop p b (l.map some) [] irc
          with ⟨r, it', c', irc'⟩
        simp [SharedSplitState.next, hbv, hsl]

/-- Accumulated over any schedule: the iterator is consumed from the
front only (the remaining responses are always an untouched suffix), the
predicate is evaluated exactly once per consumed element, and the total
number of pulls lies between the consumed count and that count plus one
exhaustion check per call. -/
lemma runInstr_iter {α : Type} :
    ∀ (cs : List Bool) (s : SharedSplitState α) (l : List α),
      s.iter = l.map some →
      ∃ k, k ≤ l.length ∧
        (runInstr s cs).2.2.iter = (l.drop k).map some ∧
        (runInstr s cs).1.2 = k ∧
        (runInstr s cs).1.1 ≤ k + cs.length ∧
        k ≤ (runInstr s cs).1.1 := by
  intro cs
  induction cs with
  | nil =>
    intro s l h
    exact ⟨0, by omega, by simpa [runInstr], by simp [runInstr],
      by simp [runInstr], by simp [runInstr]⟩
  | cons c cs ih =>
    intro s l h
    obtain ⟨j, hj, hit, hev, hpu, hevpu⟩ := nextInstr_step s c l h
    rcases hn : s.nextInstr c with ⟨⟨pu, ev⟩, r, s'⟩
    rw [hn] at hit hev hpu hevpu
    simp only at hit hev hpu hevpu
    obtain ⟨k', hk', hit', hev', hpu', hevpu'⟩ := ih s' (l.drop j) hit
    rcases hr : runInstr s' cs with ⟨⟨pu', ev'⟩, outs, sf⟩
    rw [hr] at hit' hev' hpu' hevpu'
    simp only at hit' hev' hpu' hevpu'
    have hlen : (l.drop j).length = l.length - j := List.length_drop j l
    refine ⟨j + k', by omega, ?_, ?_, ?_, ?_⟩
    · simp only [runInstr, hn, hr]
      rw [hit', List.drop_drop]
    · simp only [runInstr, hn, hr]
      omega
    · simp only [runInstr, hn, hr, List.length_cons]
      omega
    · simp only [runInstr, hn, hr]
      omega

/-- Claim C2: over the combined lifetime of both handles (any schedule
of calls), only an untouched suffix of the underlying sequence remains —
each of the `k` consumed elements was pulled exactly once and a buffered
element is never re-pulled — and the predicate is evaluated exactly `k`
times, i.e. at most once per underlying item (a cache hit re-evaluates
nothing); pulls exceed the consumed count only by at most one exhaustion
check per call. -/
theorem claim_c2_single_consumption {α : Type} (S : List α) (p : α → Bool)
    (cs : List Bool) :
    ∃ k, k ≤ S.length ∧
      (runInstr (initState S p) cs).2.2.iter = (S.drop k).map some ∧
      (runInstr (initState S p) cs).1.2 = k ∧
      (runInstr (initState S p) cs).1.1 ≤ k + cs.length ∧
      k ≤ (runInstr (initState S p) cs).1.1 :=
  runInstr_iter cs (initState S p) S rfl

/-- Counterexample to C3 as stated: the state records no terminal
exhaustion flag.  With a non-fused source that answers "no item" once
and then yields `5`, the first produce-next call observes exhaustion and
returns "no item", but the next call re-invokes the source's pull-next
(the response `some 5` is consumed) and returns the item `5`. -/
theorem claim_c3_counterexample :
    (((⟨[none, some 5], fun _ : Nat => false, [], false⟩ :
        SharedSplitState Nat).next false).1 = none) ∧
    ((⟨[none, some 5], fun _ : Nat => false, [], false⟩ :
        SharedSplitState Nat).next false).2.iter = [some 5] ∧
    ((((⟨[none, some 5], fun _ : Nat => false, [], false⟩ :
        SharedSplitState Nat).next false).2).next false).1 = some 5 := by
  decide

/-- Claim C3 (amended): once produce-next observes the underlying
sequence report exhaustion, that call returns "no item", but the code
keeps no terminal record: each subsequent call re-invokes the sequence's
pull-next (one response is consumed per call).  Provided the sequence
keeps reporting exhaustion — and the requesting side has no buffered
items — every subsequent call returns "no item". -/
theorem claim_c3_amended {α : Type} (s : SharedSplitState α) (b : Bool)
    (hiter : ∀ r ∈ s.iter, r = none)
    (hcache : b = s.is_right_cached → s.cache = []) :
    (s.next b).1 = none ∧ (s.next b).2.iter = s.iter.drop 1 := by
  obtain ⟨it, p, c, irc⟩ := s
  simp only at hiter hcache
  by_cases hbi : b = irc
  · subst hbi
    have hc : c = [] := hcache rfl
    subst hc
    cases it with
    | nil => simp [SharedSplitState.next, splitLoop]
    | cons r rest =>
      have hr : r = none := hiter r (List.mem_cons_self r rest)
      subst hr
      simp [SharedSplitState.next, splitLoop]
  · have hbi' : (b == irc) = false := by simp [hbi]
    cases it with
    | nil => simp [SharedSplitState.next, hbi', splitLoop]
    | cons r rest =>
      have hr : r = none := hiter r (List.mem_cons_self r rest)
      subst hr
      simp [SharedSplitState.next, hbi', splitLoop]

/-- Witness for the amended C3 at a concrete input: a source that keeps
reporting exhaustion makes the call return "no item" while consuming one
response (re-querying the source). -/
theorem claim_c3_amended_witness :
    ((⟨[none, none], fun _ : Nat => true, [], false⟩ :
        SharedSplitState Nat).next true).1 = none ∧
    ((⟨[none, none], fun _ : Nat => true, [], false⟩ :
        SharedSplitState Nat).next true).2.iter = [none] := by
  have h := claim_c3_amended
    (⟨[none, none], fun _ : Nat => true, [], false⟩ : SharedSplitState Nat)
    true (by decide) (by decide)
  simpa using h

/-- Counterexample to C4 as stated: with input `[1, 2]` and predicate
"item = 2", the right handle returns `2`, then "no item" (the iterator
is exhausted at that point), yet a subsequent call on the left handle
returns the buffered item `1` — not "no item". -/
theorem claim_c4_counterexample :
    (runCalls (initState [1, 2] (fun v : Nat => v == 2))
        [true, true, false]).1
      = [(true, some 2), (true, none), (false, some 1)] ∧
    (runCalls (initState [1, 2] (fun v : Nat => v == 2)) [true, true]).2.iter
      = [] := by decide

/-- Claim C4 (amended): on a well-behaved source, once a handle's
produce-next returns "no item", every subsequent produce-next call on
that same handle also returns "no item" (the other handle may still
receive its buffered items): side `b` produces no further item under any
continuation schedule. -/
theorem claim_c4_amended {α : Type} (s : SharedSplitState α) (b : Bool)
    (h : WB s) (hn : (s.next b).1 = none) :
    ∀ cs : List Bool, sideOut b (runCalls (s.next b).2 cs).1 = [] := by
  intro cs
  obtain ⟨h1, h2, -, h4⟩ := next_step s b h
  have hout : out b s = [] := by
    rw [hn] at h1
    exact List.head?_eq_none_iff.mp h1.symm
  have hout' : out b (s.next b).2 = [] := by
    rw [h2, hout]
    rfl
  obtain ⟨hrun, -⟩ := runCalls_out (s.next b).2 cs b h4
  rw [hout'] at hrun
  exact (List.append_eq_nil.mp hrun).1

/-- Witness for the amended C4 at a concrete input: after the left
handle's first "no item", further left calls under a concrete schedule
produce no item. -/
theorem claim_c4_amended_witness :
    sideOut false
      (runCalls ((initState [3] (fun _ : Nat => true)).next false).2
        [false, false, true]).1 = [] :=
  claim_c4_amended (initState [3] (fun _ : Nat => true)) false
    (by unfold WB; decide) (by decide) [false, false, true]

/-- Claim C8: for the input sequence `1, 2, ..., 19` and the predicate
`10 ≤ item`, draining the right handle completely first (eleven right
calls: ten items and the final "no item") yields exactly `10..19`, after
which draining the untouched left handle yields exactly `1..9`. -/
theorem claim_c8_scenario :
    sideOut true (runCalls (initState (List.range' 1 19)
        (fun v => decide (10 ≤ v))) (List.replicate 11 true)).1
      = List.range' 10 10 ∧
    (runCalls (initState (List.range' 1 19)
        (fun v => decide (10 ≤ v))) (List.replicate 11 true)).1.getLast?
      = some (true, none) ∧
    drainAll false (runCalls (initState (List.range' 1 19)
        (fun v => decide (10 ≤ v))) (List.replicate 11 true)).2
      = List.range' 1 9 := by decide
